import Mathlib

/-!
Verification development for the interactive FTP client / file manager
(`src/main.cpp`).  C++ `std::string` values are embedded as `List Char`;
machine-size integers (`uintmax_t`) as `Nat` with explicit range checks where
the source can overflow or throw.  Operations that are undefined or throwing
in the C++ source (out-of-range `back()` on an empty string, an uncaught
`std::out_of_range` from `std::stoull`) are embedded as `Option`/`Except`
failures so that the model is total.
-/

namespace FtpFm

/-- Embeds `FtpClient::ensure_trailing_slash` (src/main.cpp:159):
`if (url.back() != '/') url += '/'; return url;`.
`std::string::back()` on an empty string is an out-of-range access (undefined
behaviour), embedded here as `none`. -/
def ensure_trailing_slash (url : List Char) : Option (List Char) :=
  match url.getLast? with
  | none => none
  | some c => some (if c = '/' then url else url ++ ['/'])

/-- Downward scan used to embed `std::string::find_last_of(char, pos)`:
`flo s c i` returns the largest index `j ≤ i` with `s[j] = c`, if any. -/
def flo (s : List Char) (c : Char) : Nat → Option Nat
  | 0 => if s[0]? = some c then some 0 else none
  | i + 1 => if s[i + 1]? = some c then some (i + 1) else flo s c i

/-- Embeds `base_url.find_last_of('/', pos)`: search the index range
`[0, min pos (length - 1)]` from the right; `none` embeds `std::string::npos`.
The C++ call site passes `base_url.length() - 2` computed in `size_t`, which
wraps to a huge value for lengths 0 and 1; since `find_last_of` clamps the
start position to `length - 1`, truncated `Nat` subtraction produces the same
searched range for every length. -/
def find_last_of (s : List Char) (c : Char) (pos : Nat) : Option Nat :=
  flo s c (min pos (s.length - 1))

/-- Embeds `FtpClient::change_directory` (src/main.cpp:254-266) acting on the
stored `base_url`: returns the new value of `base_url`.  For `".."` the source
strips the final path segment when the last `'/'` before the final character
sits at an index greater than 5; when `find_last_of` returns `npos` it leaves
the base unchanged; otherwise control falls through to the append path, which
is also taken for every non-`".."` argument:
`base_url = ensure_trailing_slash(ensure_trailing_slash(base_url) + dir_name)`. -/
def append_path (base dir : List Char) : Option (List Char) :=
  match ensure_trailing_slash base with
  | none => none
  | some b => ensure_trailing_slash (b ++ dir)

/-- Embeds `FtpClient::change_directory` (src/main.cpp:254-266); see
`append_path` for the shared append-and-normalize tail (src/main.cpp:263-264). -/
def change_directory (base : List Char) (dir : List Char) : Option (List Char) :=
  if dir = ['.', '.'] then
    match find_last_of base '/' (base.length - 2) with
    | some i => if i > 5 then some (base.take (i + 1)) else append_path base dir
    | none => some base
  else append_path base dir

/-- Embeds the `base_url` mutation in `FtpClient::connect`
(src/main.cpp:206-211): `base_url = ensure_trailing_slash(url);`
(credentials are passed to the transfer library and do not affect the base). -/
def connect (url : List Char) : Option (List Char) :=
  ensure_trailing_slash url

/-- One row of a remote listing: embeds `FtpClient::FtpEntry`
(src/main.cpp:161-165). -/
structure FtpEntry where
  name : List Char
  is_directory : Bool
  size : Nat
deriving DecidableEq

deriving instance DecidableEq for Except

/-- Character class `[drwx\-]` of the listing regex (src/main.cpp:168). -/
def permChar (c : Char) : Bool :=
  c == 'd' || c == 'r' || c == 'w' || c == 'x' || c == '-'

/-- ECMAScript `\s` restricted to the ASCII whitespace characters
(space, tab, line feed, vertical tab, form feed, carriage return);
listing lines contain no other Unicode whitespace. -/
def wsChar (c : Char) : Bool :=
  c == ' ' || c == '\t' || c == '\n' || c == '\x0b' || c == '\x0c' || c == '\r'

/-- ECMAScript `\d` / `[0-9]`. -/
def digitChar (c : Char) : Bool :=
  '0' ≤ c && c ≤ '9'

/-- ECMAScript `[^\s]`. -/
def nonWsChar (c : Char) : Bool :=
  !wsChar c

/-- ECMAScript `.`: any character except a line terminator
(for the ASCII listing input: except LF and CR). -/
def dotChar (c : Char) : Bool :=
  !(c == '\n' || c == '\r')

/-- Greedy backtracking for one `⟨class⟩+` element of the regex: try the
chunk lengths `n, n-1, ..., 1` (longest first, as an ECMAScript greedy
quantifier does), continuing with `k` on the remaining input; `n` is the
maximal munch of the class, so every tried chunk lies inside the class. -/
def tryLen (k : List Char → Option (List (List Char))) (s : List Char) :
    Nat → Option (List (List Char))
  | 0 => none
  | n + 1 =>
    match k (s.drop (n + 1)) with
    | some cs => some (s.take (n + 1) :: cs)
    | none => tryLen k s n

/-- Backtracking matcher for a regex that is a sequence of one-or-more
character-class elements (the shape of the listing regex at
src/main.cpp:168, whose elements are `[drwx\-]+`, `\s+`, `\d+`, `[^\s]+`,
`[0-9]+` and `.+`).  A `some` result is the full-anchor match
(`std::regex_match`) with the chunk consumed by each element, in order;
the ECMAScript leftmost/greedy strategy is realised by `tryLen` preferring
the longest chunk. -/
def matchElems : List (Char → Bool) → List Char → Option (List (List Char))
  | [], s => if s.isEmpty then some [] else none
  | p :: ps, s => tryLen (matchElems ps) s ((s.takeWhile p).length)

/-- The element sequence of the listing regex (src/main.cpp:168):
`([drwx\-]+)\s+\d+\s+[^\s]+\s+[^\s]+\s+([0-9]+)\s+[^\s]+\s+[^\s]+\s+(.+)`.
Capture groups 1, 2, 3 are the chunks at positions 0, 8 and 14. -/
def ftpPattern : List (Char → Bool) :=
  [permChar, wsChar, digitChar, wsChar, nonWsChar, wsChar, nonWsChar, wsChar,
   digitChar, wsChar, nonWsChar, wsChar, nonWsChar, wsChar, dotChar]

/-- `ULLONG_MAX`: the largest value of the C++ size type
(`uintmax_t` = `unsigned long long`, 64 bits). -/
def ULLONG_MAX : Nat := 2 ^ 64 - 1

/-- Embeds `std::stoull` on the all-digit capture of group 2: the numeric
value if it fits the 64-bit size type, `none` for the `std::out_of_range`
exception thrown on overflow. -/
def stoull (s : List Char) : Option Nat :=
  let v := s.foldl (fun a c => a * 10 + (c.toNat - '0'.toNat)) 0
  if v ≤ ULLONG_MAX then some v else none

/-- Embeds `FtpClient::parse_ftp_entry` (src/main.cpp:167-178).
`Except.error ()` embeds the uncaught `std::out_of_range` that
`std::stoull` throws when the matched size field exceeds the size type;
when the regex does not match the whole line, the source falls back to
`{line, false, 0}`. -/
def parse_ftp_entry (line : List Char) : Except Unit FtpEntry :=
  match matchElems ftpPattern line with
  | some chunks =>
    let perms := chunks.getD 0 []
    let sizeStr := chunks.getD 8 []
    let nm := chunks.getD 14 []
    match stoull sizeStr with
    | some v => Except.ok ⟨nm, perms.head? == some 'd', v⟩
    | none => Except.error ()
  | none => Except.ok ⟨line, false, 0⟩

/-- Embeds `getline(ss, line, '\n')` splitting of the raw listing text in
`FtpClient::list_directory` (src/main.cpp:230-232): `split_lines_go text acc`
with `acc` the (reversed) characters of the line read so far.  A final
segment is produced only when non-empty, matching `std::getline` failing
when it extracts no characters at end of input. -/
def split_lines_go : List Char → List Char → List (List Char)
  | [], acc => if acc.isEmpty then [] else [acc.reverse]
  | c :: cs, acc =>
    if c = '\n' then acc.reverse :: split_lines_go cs []
    else split_lines_go cs (c :: acc)

/-- The list of lines `std::getline` yields from the raw listing text. -/
def split_lines (text : List Char) : List (List Char) :=
  split_lines_go text []

/-- Embeds the remote listing loop of `FtpClient::list_directory`
(src/main.cpp:230-248): each non-empty line of the raw listing text is
parsed with `parse_ftp_entry` and rendered immediately, in the order the
lines arrive (no sorting).  `Except.error ()` embeds an uncaught parser
exception aborting the loop. -/
def list_directory_entries (text : List Char) : Except Unit (List FtpEntry) :=
  ((split_lines text).filter (fun l => !l.isEmpty)).mapM parse_ftp_entry

/-- One row of a local listing: embeds `LocalFileManager::FileEntry`
(src/main.cpp:60-64). -/
structure FileEntry where
  name : List Char
  is_directory : Bool
  size : Nat
deriving DecidableEq

/-- Embeds `a.name < b.name` (`std::string::operator<`): lexicographic
comparison by character value. -/
def strLt : List Char → List Char → Bool
  | [], [] => false
  | [], _ :: _ => true
  | _ :: _, [] => false
  | a :: as, b :: bs =>
    if a.toNat < b.toNat then true
    else if b.toNat < a.toNat then false
    else strLt as bs

/-- Embeds `LocalFileManager::compareFiles` (src/main.cpp:66-71):
directories first (`a.is_directory > b.is_directory` on `bool`, i.e.
`true > false`), then `a.name < b.name`. -/
def compareFiles (a b : FileEntry) : Bool :=
  if a.is_directory != b.is_directory then a.is_directory && !b.is_directory
  else strLt a.name b.name

/-- Insertion of one entry into a list sorted by `compareFiles`. -/
def insertEntry (x : FileEntry) : List FileEntry → List FileEntry
  | [] => [x]
  | y :: ys => if compareFiles x y then x :: y :: ys else y :: insertEntry x ys

/-- Embeds `std::sort(entries.begin(), entries.end(), compareFiles)` in
`LocalFileManager::list_directory` (src/main.cpp:84): a sort by the strict
comparator `compareFiles` (for entries with pairwise distinct
(kind, name) keys the comparator is a strict total order, so every
conforming `std::sort` produces this same output order). -/
def sortEntries (l : List FileEntry) : List FileEntry :=
  l.foldr insertEntry []

/-- Embeds `split_command` (src/main.cpp:366-372): `ss >> item` splits the
line into maximal runs of non-whitespace characters, discarding
whitespace (the `std::isspace` set: space, `\t`, `\n`, `\v`, `\f`, `\r`,
the same set as `wsChar`). -/
def split_command_go : List Char → List Char → List (List Char)
  | [], acc => if acc.isEmpty then [] else [acc.reverse]
  | c :: cs, acc =>
    if wsChar c then
      if acc.isEmpty then split_command_go cs []
      else acc.reverse :: split_command_go cs []
    else split_command_go cs (c :: acc)

/-- Tokenisation of one command line, as `split_command` in the source. -/
def split_command (line : List Char) : List (List Char) :=
  split_command_go line []

/-- Embeds `std::transform(..., ::tolower)` on the command token
(src/main.cpp:393); `Char.toLower` lower-cases exactly the ASCII
uppercase letters, as `::tolower` does in the default locale. -/
def lowerToken (t : List Char) : List Char :=
  t.map Char.toLower

/-- Embeds the shell loop of `main` (src/main.cpp:382-441) as a fuel-indexed
runner over the finite list of input lines still available on standard
input.  Each iteration reads one line (`std::getline` on an exhausted
stream fails and leaves the line empty), tokenizes it, and either
`continue`s on an empty token list, `break`s (returning exit code 0,
the value of `return 0;`) on the lower-cased token `exit`, or dispatches
the command and loops.  `none` means the loop has not terminated within
`fuel` iterations. -/
def shellRun : Nat → List (List Char) → Option Nat
  | 0, _ => none
  | fuel + 1, inputs =>
    let line := inputs.headD []
    let rest := inputs.tail
    match split_command line with
    | [] => shellRun fuel rest
    | cmd :: _ =>
      if lowerToken cmd = ("exit".toList) then some 0
      else shellRun fuel rest

/-- Embeds `fs::path(s).filename().string()` (src/main.cpp:383-384) for a
generic-format path: the component after the last directory separator,
which is empty when the path ends with a separator (C++17 semantics);
base URLs such as `ftp://host/...` have no special root-name, so this is
the whole decomposition. -/
def path_filename (s : List Char) : List Char :=
  (s.reverse.takeWhile (fun c => !(c == '/'))).reverse

/-- The unit table of `format_size_human` (src/main.cpp:21). -/
def sizeUnits : List String :=
  ["B", "KB", "MB", "GB", "TB"]

/-- Embeds the division loop of `format_size_human` (src/main.cpp:22-27):
starting from unit index `i` with current value `size / 1024^i`, divide by
1024 while the value is at least 1024 and `i < 4`; returns the final unit
index.  The C++ loop runs on `double`, but division by 1024 only decrements
the binary exponent (exact), and the `>= 1024.0` comparisons against the
power-of-two thresholds `1024^(i+1) ≤ 2^40 < 2^53` are unaffected by the
initial rounding of the `uintmax_t` to `double`, so the exact counter below
computes the same index for every 64-bit size.  The loop body can run at
most four times (the `i < 4` guard), so `4 - i` spare iterations always
suffice; recursion is on that structural bound. -/
def size_loop_go (size : Nat) : Nat → Nat → Nat
  | i, 0 => i
  | i, fuel + 1 =>
    if 1024 ^ (i + 1) ≤ size ∧ i < 4 then size_loop_go size (i + 1) fuel else i

/-- The unit index the division loop of `format_size_human` ends with,
starting from index 0. -/
def size_loop (size : Nat) (i : Nat) : Nat :=
  size_loop_go size i (4 - i)

/-- Rendering of the scaled value with `std::setprecision(1) << std::fixed`
(src/main.cpp:29): the exact quotient `size / 1024^i` rounded to one
decimal place, ties to even (the IEEE rounding `printf`-style output
applies to the value, which is exact for the power-of-two-scaled sizes at
issue). -/
def renderOneDecimal (size : Nat) (den : Nat) : String :=
  let q := size * 10 / den
  let r := size * 10 % den
  let rounded :=
    if den < 2 * r then q + 1
    else if den = 2 * r then (if q % 2 = 1 then q + 1 else q) else q
  Nat.repr (rounded / 10) ++ "." ++ Nat.repr (rounded % 10)

/-- Embeds `format_size_human` (src/main.cpp:19-31): `0` short-circuits to
`"0 B"`; otherwise the division loop picks the unit, and the value is
printed with zero decimal places when no division occurred and one
otherwise. -/
def format_size_human (size : Nat) : String :=
  if size = 0 then "0 B"
  else
    let i := size_loop size 0
    let unit := sizeUnits.getD i "B"
    if i = 0 then Nat.repr size ++ " " ++ unit
    else renderOneDecimal size (1024 ^ i) ++ " " ++ unit

/-- Local listing example entry: directory `dirA`. -/
def eDirA : FileEntry := ⟨("dirA".toList), true, 0⟩

/-- Local listing example entry: directory `dirB`. -/
def eDirB : FileEntry := ⟨("dirB".toList), true, 0⟩

/-- Local listing example entry: file `fileA`. -/
def eFileA : FileEntry := ⟨("fileA".toList), false, 5⟩

/-- Local listing example entry: file `fileB`. -/
def eFileB : FileEntry := ⟨("fileB".toList), false, 5⟩

/-- A raw remote listing whose lines are the directories `dirB`, `dirA` and
the files `fileA`, `fileB`, arriving in the order dirB, fileA, dirA, fileB. -/
def exampleListing : List Char :=
  ("drwxr-xr-x 2 u g 0 Jan 1 dirB\n-rw-r--r-- 1 u g 5 Jan 1 fileA\ndrwxr-xr-x 2 u g 0 Jan 1 dirA\n-rw-r--r-- 1 u g 5 Jan 1 fileB\n").toList

/-- `s` ends with exactly one `'/'`: the last character is a separator and the
one before it (if any) is not. -/
def endsWithExactlyOneSlash (s : List Char) : Bool :=
  s.getLast? == some '/' && !(s.dropLast.getLast? == some '/')

/-! ### Helper lemmas -/

theorem ensure_some_getLast {u v : List Char}
    (h : ensure_trailing_slash u = some v) : v.getLast? = some '/' := by
  unfold ensure_trailing_slash at h
  cases hu : u.getLast? with
  | none => rw [hu] at h; exact absurd h (by simp)
  | some c =>
    rw [hu] at h
    injection h with h
    subst h
    by_cases hc : c = '/'
    · rw [if_pos hc, hu, hc]
    · rw [if_neg hc, List.getLast?_concat]

theorem ensure_of_slash {u : List Char} (h : u.getLast? = some '/') :
    ensure_trailing_slash u = some u := by
  unfold ensure_trailing_slash
  rw [h]
  simp

theorem ensure_isSome {u : List Char} (h : u ≠ []) :
    (ensure_trailing_slash u).isSome := by
  unfold ensure_trailing_slash
  cases hu : u.getLast? with
  | none => exact absurd (List.getLast?_isSome.2 h) (by rw [hu]; simp)
  | some c => simp

theorem flo_some {s : List Char} {c : Char} :
    ∀ i j : Nat, flo s c i = some j → s[j]? = some c ∧ j ≤ i := by
  intro i
  induction i with
  | zero =>
    intro j h
    simp only [flo] at h
    split at h
    · injection h with h; subst h; exact ⟨by assumption, Nat.le_refl 0⟩
    · exact absurd h (by simp)
  | succ n ih =>
    intro j h
    simp only [flo] at h
    split at h
    · injection h with h; subst h; exact ⟨by assumption, Nat.le_refl _⟩
    · obtain ⟨h1, h2⟩ := ih j h
      exact ⟨h1, Nat.le_succ_of_le h2⟩

theorem flo_self {s : List Char} {c : Char} {i : Nat} (h : s[i]? = some c) :
    flo s c i = some i := by
  cases i with
  | zero => simp only [flo]; rw [if_pos h]
  | succ n => simp only [flo]; rw [if_pos h]

theorem flo_eq_of_none_between {s : List Char} {c : Char} :
    ∀ i j0 : Nat, j0 ≤ i → (∀ j, j0 < j → j ≤ i → ¬ s[j]? = some c) →
      flo s c i = flo s c j0 := by
  intro i
  induction i with
  | zero => intro j0 h _; cases Nat.le_zero.1 h; rfl
  | succ n ih =>
    intro j0 hle hnone
    rcases Nat.eq_or_lt_of_le hle with he | hlt
    · rw [he]
    · have h1 : ¬ s[n + 1]? = some c := hnone (n + 1) hlt (Nat.le_refl _)
      have step : flo s c (n + 1) = flo s c n := by
        simp only [flo]; rw [if_neg h1]
      rw [step]
      exact ih j0 (Nat.lt_succ_iff.1 hlt)
        (fun j hj1 hj2 => hnone j hj1 (Nat.le_succ_of_le hj2))

theorem find_last_of_some {s : List Char} {c : Char} {pos j : Nat}
    (h : find_last_of s c pos = some j) : s[j]? = some c :=
  (flo_some (min pos (s.length - 1)) j h).1

theorem getLast?_take_succ {s : List Char} {i : Nat} {c : Char}
    (h : s[i]? = some c) : (s.take (i + 1)).getLast? = some c := by
  have hi : i < s.length := by
    rcases List.getElem?_eq_some_iff.1 h with ⟨hlt, _⟩
    exact hlt
  rw [List.getLast?_eq_getElem?, List.length_take]
  have hmin : min (i + 1) s.length - 1 = i := by omega
  rw [hmin, List.getElem?_take_of_succ, h]

theorem append_path_getLast {base dir b : List Char}
    (h : append_path base dir = some b) : b.getLast? = some '/' := by
  unfold append_path at h
  cases he : ensure_trailing_slash base with
  | none => rw [he] at h; exact absurd h (by simp)
  | some x => rw [he] at h; exact ensure_some_getLast h

/-! ### Claim theorems -/

/-- Claim C1 (code bug): the spec says `ascendRemote` at the server root is a
no-op, but for `base_url == "ftp://host/"` the last `'/'` at an index
`≤ length - 2` is the one at index 5 (end of the scheme `ftp://`), the
`last_slash > 5` guard fails, and — because the source only `return`s in the
`npos` case — control falls through to the append path, so `cd ..` appends
`".."` and a slash: the base becomes `"ftp://host/../"`, not `"ftp://host/"`. -/
theorem change_directory_root_ascend :
    change_directory ("ftp://host/".toList) ("..".toList)
      = some ("ftp://host/../".toList) := by decide

/-- Claim C2 (code bug): the listing regex skips only two whitespace-separated
fields between the size and the name, while the reference `ls -l` format has
three date/time fields; on the well-formed reference line the captured name is
therefore `"00:00 subdir"` (the time field is glued onto the name), not
`"subdir"` as the spec claims.  The malformed-line fallback behaves as
specified. -/
theorem parse_ftp_entry_reference_lines :
    parse_ftp_entry ("drwxr-xr-x 2 user group 4096 Jan 1 00:00 subdir".toList)
      = Except.ok ⟨("00:00 subdir".toList), true, 4096⟩ ∧
    parse_ftp_entry ("not a listing line".toList)
      = Except.ok ⟨("not a listing line".toList), false, 0⟩ := by
  exact ⟨by decide, by decide⟩

/-- Claim C3 (code bug): the spec says end-of-input terminates the shell loop
like `exit` with exit code 0, but on an exhausted stream `std::getline` fails
leaving the line empty, the token list is empty, and the loop `continue`s: no
amount of iterations terminates the loop (first conjunct), whereas an `exit`
line terminates it with code 0 (second conjunct). -/
theorem shell_loop_spins_on_eof :
    (∀ fuel : Nat, shellRun fuel [] = none) ∧
      shellRun 1 [("exit".toList)] = some 0 := by
  constructor
  · intro fuel
    induction fuel with
    | zero => rfl
    | succ n ih => simpa [shellRun, split_command, split_command_go] using ih
  · decide

/-- Claim C7 (code bug): a listing line whose size field is a digit string
exceeding the 64-bit size type matches the regex, and `std::stoull` then
throws `std::out_of_range`, which nothing in the parser or the listing loop
catches: the line is not recovered by the fallback, and the whole listing
aborts (second conjunct). -/
theorem parse_ftp_entry_overflow :
    parse_ftp_entry
        ("drwxr-xr-x 2 user group 99999999999999999999999 Jan 1 subdir".toList)
      = Except.error () ∧
    list_directory_entries
        ("drwxr-xr-x 2 user group 99999999999999999999999 Jan 1 subdir".toList)
      = Except.error () := by
  exact ⟨by decide, by decide⟩

/-- Claim C8 (code bug): the prompt renders
`fs::path(base_url).filename().string()`, and for a slash-terminated base such
as `"ftp://host/a/"` the C++17 `filename()` of a path ending in a separator is
empty — the prompt shows the empty string, not the final segment `"a"`. -/
theorem prompt_remote_segment_empty :
    path_filename ("ftp://host/a/".toList) = [] ∧
      ("a".toList) ≠ ([] : List Char) := by
  exact ⟨by decide, by decide⟩

/-- Claim C10 (confirmed): the human-readable size formatter special-cases 0,
divides by 1024 while the value is at least 1024 and the unit index is below
TB, and prints zero decimals iff no division occurred; at the claim's sample
points: `0 ↦ "0 B"`, `1023 ↦ "1023 B"`, `1024 ↦ "1.0 KB"`, `1536 ↦ "1.5 KB"`,
`1024^4 ↦ "1.0 TB"`. -/
theorem format_size_human_spec :
    format_size_human 0 = "0 B" ∧ format_size_human 1023 = "1023 B" ∧
    format_size_human 1024 = "1.0 KB" ∧ format_size_human 1536 = "1.5 KB" ∧
    format_size_human (1024 ^ 4) = "1.0 TB" := by
  exact ⟨by decide, by decide, by decide, by decide, by decide⟩

/-- Claim C4, counterexample: `connect` with the non-empty URL
`"ftp://host//"` stores it unchanged (`ensure_trailing_slash` only appends
when the last character is not already `'/'`), so the stored base ends with
two separators, refuting "exactly one trailing separator" as stated. -/
theorem connect_two_trailing_slashes :
    connect ("ftp://host//".toList) = some ("ftp://host//".toList) ∧
      endsWithExactlyOneSlash ("ftp://host//".toList) = false := by
  exact ⟨by decide, by decide⟩

/-- Claim C4, amended: after `connect` with any URL (in particular any
non-empty one, on which `connect` always succeeds — second conjunct) and after
any completed `change_directory`, the stored base ends with at least one
trailing `'/'` — except that the `".."`-with-no-separator branch leaves the
base unchanged (the third conjunct's right disjunct), which is not a
mutation. -/
theorem base_url_trailing_slash_invariant :
    (∀ url b : List Char, connect url = some b → b.getLast? = some '/') ∧
    (∀ url : List Char, url ≠ [] → (connect url).isSome) ∧
    (∀ base dir b : List Char, change_directory base dir = some b →
      b.getLast? = some '/' ∨ b = base) := by
  refine ⟨fun url b h => ensure_some_getLast h, fun url h => ensure_isSome h,
    fun base dir b h => ?_⟩
  unfold change_directory at h
  by_cases hd : dir = ['.', '.']
  · rw [if_pos hd] at h
    cases hf : find_last_of base '/' (base.length - 2) with
    | none => rw [hf] at h; injection h with h; exact Or.inr h.symm
    | some i =>
      rw [hf] at h
      dsimp only at h
      by_cases hi : i > 5
      · rw [if_pos hi] at h
        injection h with h
        subst h
        exact Or.inl (getLast?_take_succ (find_last_of_some hf))
      · rw [if_neg hi] at h
        exact Or.inl (append_path_getLast h)
  · rw [if_neg hd] at h
    exact Or.inl (append_path_getLast h)

/-- Witness for `base_url_trailing_slash_invariant` at concrete inputs. -/
theorem base_url_trailing_slash_invariant_witness :
    ("ftp://host/".toList).getLast? = some '/' ∧
    (connect ("ftp://host".toList)).isSome ∧
    (("ftp://host/a/".toList).getLast? = some '/' ∨
      ("ftp://host/a/".toList) = ("ftp://host/".toList)) :=
  ⟨base_url_trailing_slash_invariant.1 ("ftp://host".toList) ("ftp://host/".toList)
      (by decide),
   base_url_trailing_slash_invariant.2.1 ("ftp://host".toList) (by decide),
   base_url_trailing_slash_invariant.2.2 ("ftp://host/".toList) ("a".toList)
      ("ftp://host/a/".toList) (by decide)⟩

/-- Claim C6, counterexample: with no prior `connect` the base is empty, and
the remote change-directory with a non-`".."` argument evaluates
`ensure_trailing_slash("")`, whose `url.back()` reads the last character of an
empty string — an out-of-range access, embedded as `none`; the operation is
not well-defined on the empty base. -/
theorem change_directory_empty_base_faults :
    change_directory [] ("x".toList) = none := by decide

/-- Claim C6, amended: on the empty base, the remote change-directory with any
non-`".."` argument performs an out-of-range access to the last character of
the empty string (embedded as `none`); only the `".."` argument is total
there, leaving the empty base unchanged. -/
theorem change_directory_empty_base_amended :
    (∀ dir : List Char, dir ≠ ['.', '.'] → change_directory [] dir = none) ∧
    change_directory [] ['.', '.'] = some [] := by
  constructor
  · intro dir h
    simp [change_directory, append_path, ensure_trailing_slash, h]
  · decide

/-- Witness for `change_directory_empty_base_amended` at a concrete input. -/
theorem change_directory_empty_base_amended_witness :
    change_directory [] ("x".toList) = none ∧
      change_directory [] ['.', '.'] = some [] :=
  ⟨change_directory_empty_base_amended.1 ("x".toList) (by decide),
   change_directory_empty_base_amended.2⟩

theorem ensure_append_no_slash {u v : List Char} (hv : v ≠ []) (h : '/' ∉ v) :
    ensure_trailing_slash (u ++ v) = some ((u ++ v) ++ ['/']) := by
  obtain ⟨d, hd⟩ := Option.isSome_iff_exists.1 (List.getLast?_isSome.2 hv)
  have hdm : d ∈ v := List.mem_of_getLast?_eq_some hd
  have hdne : ¬ d = '/' := fun e => h (e ▸ hdm)
  unfold ensure_trailing_slash
  rw [List.getLast?_append, hd, Option.or_some]
  dsimp only
  rw [if_neg hdne]

/-- Claim C9 (confirmed), general form: from any slash-terminated base whose
final separator sits beyond the scheme prefix (`length ≥ 7`, as for
`"ftp://host/"` and anything below it), descending into a non-empty,
separator-free, non-`".."` directory name and then ascending with `".."`
returns exactly the original base. -/
theorem descend_ascend_roundtrip {base dir : List Char}
    (hslash : base.getLast? = some '/') (hlen : 7 ≤ base.length)
    (hdir : dir ≠ []) (hnosl : '/' ∉ dir) (hdd : dir ≠ ['.', '.']) :
    (change_directory base dir).bind (fun b => change_directory b ("..".toList))
      = some base := by
  have hdl : 1 ≤ dir.length := List.length_pos.2 hdir
  have hb : (base ++ dir) ++ ['/'] = base ++ (dir ++ ['/']) := by
    rw [List.append_assoc]
  have hA : change_directory base dir = some ((base ++ dir) ++ ['/']) := by
    unfold change_directory append_path
    rw [if_neg hdd, ensure_of_slash hslash]
    dsimp only
    exact ensure_append_no_slash hdir hnosl
  have hlen2 : ((base ++ dir) ++ ['/']).length = base.length + dir.length + 1 := by
    simp [List.length_append]
    omega
  have hget : ((base ++ dir) ++ ['/'])[base.length - 1]? = some '/' := by
    rw [hb, List.getElem?_append_left (by omega : base.length - 1 < base.length),
      ← List.getLast?_eq_getElem?]
    exact hslash
  have hnone : ∀ j, base.length - 1 < j → j ≤ base.length + dir.length - 1 →
      ¬ ((base ++ dir) ++ ['/'])[j]? = some '/' := by
    intro j hj1 hj2 hc
    have hjN : base.length ≤ j := by omega
    have hjd : j - base.length < dir.length := by omega
    rw [hb, List.getElem?_append_right hjN, List.getElem?_append_left hjd] at hc
    exact hnosl (List.getElem?_mem hc)
  have hfind : find_last_of ((base ++ dir) ++ ['/']) '/'
      (((base ++ dir) ++ ['/']).length - 2) = some (base.length - 1) := by
    unfold find_last_of
    have hmin : min ((((base ++ dir) ++ ['/']).length) - 2)
        ((((base ++ dir) ++ ['/']).length) - 1) = base.length + dir.length - 1 := by
      rw [hlen2]; omega
    rw [hmin,
      flo_eq_of_none_between (base.length + dir.length - 1) (base.length - 1)
        (by omega) hnone]
    exact flo_self hget
  have hB : change_directory ((base ++ dir) ++ ['/']) ("..".toList)
      = some base := by
    show change_directory ((base ++ dir) ++ ['/']) ['.', '.'] = some base
    unfold change_directory
    rw [if_pos rfl, hfind]
    dsimp only
    rw [if_pos (by omega : base.length - 1 > 5)]
    have hsucc : base.length - 1 + 1 = base.length := by omega
    rw [hsucc, hb, List.take_left]
  rw [hA]
  exact hB

/-- Witness for `descend_ascend_roundtrip`: the spec's own example,
`base = "ftp://host/a/"`, `dir = "b"`. -/
theorem descend_ascend_roundtrip_witness :
    (change_directory ("ftp://host/a/".toList) ("b".toList)).bind
        (fun b => change_directory b ("..".toList))
      = some ("ftp://host/a/".toList) :=
  descend_ascend_roundtrip (by decide) (by decide) (by decide) (by decide)
    (by decide)

/-! ### The comparator `compareFiles` is a strict order; `sortEntries` sorts -/

theorem char_toNat_inj {a b : Char} (h : a.toNat = b.toNat) : a = b := by
  have hx := congrArg Char.ofNat h
  rwa [Char.ofNat_toNat, Char.ofNat_toNat] at hx

theorem strLt_asymm : ∀ a b : List Char, strLt a b = true → strLt b a = false := by
  intro a
  induction a with
  | nil =>
    intro b h
    cases b with
    | nil => simp [strLt] at h
    | cons d ds => simp [strLt]
  | cons c cs ih =>
    intro b h
    cases b with
    | nil => simp [strLt] at h
    | cons d ds =>
      simp only [strLt] at h ⊢
      by_cases h1 : c.toNat < d.toNat
      · rw [if_neg (by omega : ¬ d.toNat < c.toNat), if_pos h1]
      · by_cases h2 : d.toNat < c.toNat
        · rw [if_neg h1, if_pos h2] at h
          exact absurd h (by simp)
        · rw [if_neg h1, if_neg h2] at h
          rw [if_neg h2, if_neg h1]
          exact ih ds h

theorem strLt_trans : ∀ a b c : List Char,
    strLt a b = true → strLt b c = true → strLt a c = true := by
  intro a
  induction a with
  | nil =>
    intro b c hab hbc
    cases c with
    | nil => cases b <;> simp [strLt] at hbc
    | cons z zs => simp [strLt]
  | cons x xs ih =>
    intro b c hab hbc
    cases b with
    | nil => simp [strLt] at hab
    | cons y ys =>
      cases c with
      | nil => simp [strLt] at hbc
      | cons z zs =>
        simp only [strLt] at hab hbc ⊢
        by_cases h1 : x.toNat < y.toNat
        · by_cases h2 : y.toNat < z.toNat
          · rw [if_pos (by omega : x.toNat < z.toNat)]
          · by_cases h3 : z.toNat < y.toNat
            · rw [if_neg h2, if_pos h3] at hbc
              exact absurd hbc (by simp)
            · rw [if_pos (by omega : x.toNat < z.toNat)]
        · by_cases h1' : y.toNat < x.toNat
          · rw [if_neg h1, if_pos h1'] at hab
            exact absurd hab (by simp)
          · rw [if_neg h1, if_neg h1'] at hab
            by_cases h2 : y.toNat < z.toNat
            · rw [if_pos (by omega : x.toNat < z.toNat)]
            · by_cases h3 : z.toNat < y.toNat
              · rw [if_neg h2, if_pos h3] at hbc
                exact absurd hbc (by simp)
              · rw [if_neg h2, if_neg h3] at hbc
                rw [if_neg (by omega : ¬ x.toNat < z.toNat),
                  if_neg (by omega : ¬ z.toNat < x.toNat)]
                exact ih ys zs hab hbc

theorem compareFiles_asymm {a b : FileEntry} (h : compareFiles a b = true) :
    compareFiles b a = false := by
  obtain ⟨na, da, sa⟩ := a
  obtain ⟨nb, db, sb⟩ := b
  cases da <;> cases db <;> simp only [compareFiles] at h ⊢ <;> simp_all
  · exact strLt_asymm _ _ h
  · exact strLt_asymm _ _ h

theorem compareFiles_trans {a b c : FileEntry} (h1 : compareFiles a b = true)
    (h2 : compareFiles b c = true) : compareFiles a c = true := by
  obtain ⟨na, da, sa⟩ := a
  obtain ⟨nb, db, sb⟩ := b
  obtain ⟨nc, dc, sc⟩ := c
  cases da <;> cases db <;> cases dc <;>
    simp only [compareFiles] at h1 h2 ⊢ <;> simp_all
  · exact strLt_trans _ _ _ h1 h2
  · exact strLt_trans _ _ _ h1 h2

/-- The non-strict order induced by the strict comparator `compareFiles`:
`a` may precede `b` in a `std::sort(..., compareFiles)` output exactly when
`compareFiles b a` is false. -/
def entryLe (a b : FileEntry) : Prop := compareFiles b a = false

theorem mem_insertEntry {z x : FileEntry} :
    ∀ l : List FileEntry, z ∈ insertEntry x l → z = x ∨ z ∈ l := by
  intro l
  induction l with
  | nil =>
    intro h
    simp only [insertEntry] at h
    exact Or.inl (List.mem_singleton.1 h)
  | cons y ys ih =>
    intro h
    simp only [insertEntry] at h
    by_cases hc : compareFiles x y = true
    · rw [if_pos hc] at h
      rcases List.mem_cons.1 h with h | h
      · exact Or.inl h
      · exact Or.inr h
    · rw [if_neg hc] at h
      rcases List.mem_cons.1 h with h | h
      · exact Or.inr (by rw [h]; exact List.mem_cons_self y ys)
      · rcases ih h with h' | h'
        · exact Or.inl h'
        · exact Or.inr (List.mem_cons_of_mem _ h')

theorem insertEntry_pairwise {x : FileEntry} :
    ∀ {l : List FileEntry}, l.Pairwise entryLe →
      (insertEntry x l).Pairwise entryLe := by
  intro l
  induction l with
  | nil => intro _; simp [insertEntry]
  | cons y ys ih =>
    intro h
    rcases List.pairwise_cons.1 h with ⟨hy, hys⟩
    simp only [insertEntry]
    by_cases hc : compareFiles x y = true
    · rw [if_pos hc]
      refine List.pairwise_cons.2 ⟨?_, h⟩
      intro z hz
      rcases List.mem_cons.1 hz with hz | hz
      · rw [hz]
        exact compareFiles_asymm hc
      · have hyz : compareFiles z y = false := hy z hz
        show compareFiles z x = false
        cases hzx : compareFiles z x with
        | false => rfl
        | true =>
          rw [compareFiles_trans hzx hc] at hyz
          exact absurd hyz (by simp)
    · rw [if_neg hc]
      refine List.pairwise_cons.2 ⟨?_, ih hys⟩
      intro z hz
      rcases mem_insertEntry ys hz with hz | hz
      · rw [hz]
        show compareFiles x y = false
        exact Bool.eq_false_iff.2 hc
      · exact hy z hz

theorem insertEntry_perm (x : FileEntry) :
    ∀ l : List FileEntry, (insertEntry x l).Perm (x :: l) := by
  intro l
  induction l with
  | nil => exact List.Perm.refl _
  | cons y ys ih =>
    simp only [insertEntry]
    by_cases hc : compareFiles x y = true
    · rw [if_pos hc]
    · rw [if_neg hc]
      exact (ih.cons y).trans (List.Perm.swap x y ys)

theorem sortEntries_pairwise (l : List FileEntry) :
    (sortEntries l).Pairwise entryLe := by
  induction l with
  | nil => simp [sortEntries]
  | cons x xs ih =>
    show (insertEntry x (List.foldr insertEntry [] xs)).Pairwise entryLe
    exact insertEntry_pairwise ih

theorem sortEntries_perm (l : List FileEntry) : (sortEntries l).Perm l := by
  induction l with
  | nil => exact List.Perm.refl _
  | cons x xs ih =>
    show (insertEntry x (List.foldr insertEntry [] xs)).Perm (x :: xs)
    exact (insertEntry_perm x _).trans (ih.cons x)

/-- Claim C5, counterexample: the remote listing (`ls`/`dir`) does not sort —
`FtpClient::list_directory` parses and renders each line as it arrives — so
the listing of `exampleListing` (order dirB, fileA, dirA, fileB) renders the
names in that arrival order, not in the claimed sorted order
`[dirA, dirB, fileA, fileB]`. -/
theorem remote_listing_unsorted :
    (list_directory_entries exampleListing).map (fun es => es.map FtpEntry.name)
      = Except.ok
          [("dirB".toList), ("fileA".toList), ("dirA".toList), ("fileB".toList)] ∧
    ¬ ([("dirB".toList), ("fileA".toList), ("dirA".toList), ("fileB".toList)]
        = [("dirA".toList), ("dirB".toList), ("fileA".toList), ("fileB".toList)]) := by
  exact ⟨by decide, by decide⟩

/-- Claim C5, amended: the local listing (`lls`/`ldir`) sorts its entries with
directories before files and lexicographically by name within each group —
`sortEntries` always yields a permutation of its input that is pairwise
ordered for `compareFiles`, and on the example entries
`{dirB, fileA, dirA, fileB}` it outputs `[dirA, dirB, fileA, fileB]` — while
the remote listing (`ls`/`dir`) renders entries unsorted, in arrival order. -/
theorem listing_sort_amended :
    (∀ l : List FileEntry,
      (sortEntries l).Pairwise entryLe ∧ (sortEntries l).Perm l) ∧
    sortEntries [eDirB, eFileA, eDirA, eFileB]
      = [eDirA, eDirB, eFileA, eFileB] ∧
    list_directory_entries exampleListing
      = Except.ok [⟨("dirB".toList), true, 0⟩, ⟨("fileA".toList), false, 5⟩,
          ⟨("dirA".toList), true, 0⟩, ⟨("fileB".toList), false, 5⟩] :=
  ⟨fun l => ⟨sortEntries_pairwise l, sortEntries_perm l⟩, by decide, by decide⟩

end FtpFm
